import Mathlib

/-!
Verification of the mistake-detection scoring engine (src/api/scorer.py).

The Python module is shallowly embedded below.  Text is modelled as
List Char (the data of a Lean String); Python whitespace (space, tab,
newline, carriage return, vertical tab, form feed) is modelled by isWS;
Python str.lower is modelled for the ASCII range by lowerChar; the
compiled regular expressions of COMPLEXITY_REGEX are embedded by a small
regular-expression evaluator (inductive RE) supporting exactly the
constructs those patterns use: character classes, concatenation,
alternation, option, star of a character class, and the word-boundary
assertion of Python re.  The rapidfuzz similarity primitive and the
optional spaCy lemmatizer are external libraries, not code of this
repository; they enter as explicit function parameters (scorer,
lemmatize), exactly as section 9 of the specification describes the
pluggable analyzer.
-/

/-! ## Character helpers -/

/-- Python whitespace for the ASCII range: space, tab, newline, carriage
return, vertical tab, form feed (str.split, str.strip and regex \s). -/
def isWS (c : Char) : Bool :=
  c == ' ' || c == '\t' || c == '\n' || c == '\r' || c == '\x0b' || c == '\x0c'

/-- Python str.lower on the ASCII range: map A-Z to a-z, keep the rest. -/
def lowerChar (c : Char) : Char :=
  if 65 ≤ c.toNat && c.toNat ≤ 90 then Char.ofNat (c.toNat + 32) else c

/-- Python regex word character \w for the ASCII range: [A-Za-z0-9_]. -/
def isWordChar (c : Char) : Bool :=
  (48 ≤ c.toNat && c.toNat ≤ 57) || (65 ≤ c.toNat && c.toNat ≤ 90) ||
    (97 ≤ c.toNat && c.toNat ≤ 122) || c == '_'

/-- The character class kept by the normalizer substitution
re.sub of the negated class of [0-9A-Za-z \s ^ * ( ) + -]. -/
def allowedChar (c : Char) : Bool :=
  (48 ≤ c.toNat && c.toNat ≤ 57) || (65 ≤ c.toNat && c.toNat ≤ 90) ||
    (97 ≤ c.toNat && c.toNat ≤ 122) || isWS c ||
    c == '^' || c == '*' || c == '(' || c == ')' || c == '+' || c == '-'

/-- The letter v, either case (for the word vs of the normalizer). -/
def isV (c : Char) : Bool := c == 'v' || c == 'V'

/-- The letter s, either case (for the word vs of the normalizer). -/
def isS (c : Char) : Bool := c == 's' || c == 'S'

/-- Word-character test on an optional character; the absent character
(before the start or after the end of the text) is not a word character. -/
def isWordOpt : Option Char → Bool
  | some c => isWordChar c
  | none => false

/-! ## The normalizer (scorer.py, _normalize_keep_paren), stage by stage -/

/-- Python str.strip on a character list. -/
def stripL (l : List Char) : List Char :=
  ((l.dropWhile isWS).reverse.dropWhile isWS).reverse

/-- The replace of every slash by a space: t.replace("/", " "). -/
def slashRep (l : List Char) : List Char :=
  l.map (fun c => if c == '/' then ' ' else c)

/-- The substitution re.sub of the pattern \bvs\b (case-insensitive) by
the four characters space v s space, scanning left to right over the
original characters; prev is the character just before the current
position (none at the start). -/
def vsSubAux : Option Char → List Char → List Char
  | _, [] => []
  | _, [c] => [c]
  | prev, c1 :: c2 :: rest =>
    if isV c1 && isS c2 && !isWordOpt prev && !isWordOpt rest.head? then
      ' ' :: 'v' :: 's' :: ' ' :: vsSubAux (some c2) rest
    else
      c1 :: vsSubAux (some c1) (c2 :: rest)

/-- The substitution replacing every character outside the kept class by
a space. -/
def filterA (l : List Char) : List Char :=
  l.map (fun c => if allowedChar c then c else ' ')

/-- Worker for Python str.split with no argument; the accumulator holds
the reversed current word (structural recursion, so that the kernel can
evaluate it). -/
def splitWSAux : List Char → List Char → List (List Char)
  | [], acc => if acc.isEmpty then [] else [acc.reverse]
  | c :: rest, acc =>
    if isWS c then
      (if acc.isEmpty then [] else [acc.reverse]) ++ splitWSAux rest []
    else splitWSAux rest (c :: acc)

/-- Python str.split with no argument: split on whitespace runs,
discarding empty pieces. -/
def splitWS (l : List Char) : List (List Char) := splitWSAux l []

/-- The join of words by single spaces: " ".join. -/
def joinSpace : List (List Char) → List Char
  | [] => []
  | [w] => w
  | w :: ws => w ++ ' ' :: joinSpace ws

/-- Python str.lower on a character list (ASCII range). -/
def lowerL (l : List Char) : List Char := l.map lowerChar

/-- The character list has no occurrence of the letter v immediately
followed by the letter s (either case).  Used to state the amended
idempotence claim for the normalizer. -/
def noVS : List Char → Bool
  | c1 :: c2 :: rest => !(isV c1 && isS c2) && noVS (c2 :: rest)
  | _ => true

/-- Embedding of _normalize_keep_paren on character lists: strip, replace
slashes, rewrite the word vs, replace disallowed characters by spaces,
collapse whitespace by split and join, lower-case. -/
def normalizeL (l : List Char) : List Char :=
  lowerL (joinSpace (splitWS (filterA (vsSubAux none (slashRep (stripL l))))))

/-- Embedding of scorer.py _normalize_keep_paren. -/
def normalize_keep_paren (s : String) : String :=
  String.mk (normalizeL s.data)

/-- Python substring test (needle in hay) on character lists. -/
def strContainsL (hay needle : List Char) : Bool :=
  needle.isPrefixOf hay ||
    match hay with
    | [] => false
    | _ :: t => strContainsL t needle

/-- Python substring test (needle in hay) on strings. -/
def strContains (hay needle : String) : Bool :=
  strContainsL hay.data needle.data

/-! ## A small regular-expression evaluator for the COMPLEXITY_REGEX table -/

/-- The regular-expression constructs used by the patterns of
COMPLEXITY_REGEX: a character class, concatenation, alternation, an
optional part, the star of a character class, and the word-boundary
assertion \b of Python re. -/
inductive RE where
  | cls (p : Char → Bool)
  | cat (a b : RE)
  | alt (a b : RE)
  | opt (a : RE)
  | star (p : Char → Bool)
  | wb

/-- All ways a star of the class p can consume a run of p-characters:
each result is the pair of the character just before the remaining text
and the remaining text. -/
def starRuns (p : Char → Bool) : Option Char → List Char → List (Option Char × List Char)
  | prev, [] => [(prev, [])]
  | prev, c :: rest =>
    (prev, c :: rest) :: (if p c then starRuns p (some c) rest else [])

/-- All ways the expression can match a prefix of cs, where prev is the
character just before cs: each result is the pair of the last matched
character (or prev) and the rest of the text. -/
def reMatch : RE → Option Char → List Char → List (Option Char × List Char)
  | .cls _, _, [] => []
  | .cls p, _, c :: rest => if p c then [(some c, rest)] else []
  | .cat a b, prev, cs => (reMatch a prev cs).flatMap (fun pr => reMatch b pr.1 pr.2)
  | .alt a b, prev, cs => reMatch a prev cs ++ reMatch b prev cs
  | .opt a, prev, cs => reMatch a prev cs ++ [(prev, cs)]
  | .star p, prev, cs => starRuns p prev cs
  | .wb, prev, cs => if isWordOpt prev != isWordOpt cs.head? then [(prev, cs)] else []

/-- Does the expression match starting at some position of the text
(Python re.search)?  prev is the character before the current position. -/
def reSearchAux (re : RE) : Option Char → List Char → Bool
  | prev, [] => !(reMatch re prev []).isEmpty
  | prev, c :: rest => !(reMatch re prev (c :: rest)).isEmpty || reSearchAux re (some c) rest

/-- Python rx.search(text) as a Boolean. -/
def reSearch (re : RE) (s : String) : Bool := reSearchAux re none s.data

/-- A single literal character (symbols; no case folding needed). -/
def chC (c : Char) : RE := .cls (fun d => d == c)

/-- A single letter under the re.I flag: the lowered input character must
equal the (lowercase) pattern character. -/
def chI (c : Char) : RE := .cls (fun d => lowerChar d == c)

/-- The class (?:\*|\s): a star symbol or a whitespace character. -/
def clsSW : RE := .cls (fun d => d == '*' || isWS d)

/-- The class [\^*]. -/
def clsPow : RE := .cls (fun d => d == '^' || d == '*')

/-- The class [\+&]. -/
def clsPlusAmp : RE := .cls (fun d => d == '+' || d == '&')

/-- Zero or more whitespace characters: \s* . -/
def wss : RE := .star isWS

/-- One or more whitespace characters: \s+ . -/
def wsp : RE := .cat (.cls isWS) (.star isWS)

/-- Concatenation of a list of expressions (empty list matches the empty
string). -/
def seqRE : List RE → RE
  | [] => .opt (.cls (fun _ => false))
  | [r] => r
  | r :: rest => .cat r (seqRE rest)

/-- Alternation of a list of expressions (empty list matches nothing). -/
def altRE : List RE → RE
  | [] => .cls (fun _ => false)
  | [r] => r
  | r :: rest => .alt r (altRE rest)

/-- A case-insensitive literal word. -/
def litI (s : String) : RE := seqRE (s.data.map chI)

/-- Wrap a pattern body in the outer \b ... \b of every table entry. -/
def bounded (r : RE) : RE := .cat .wb (.cat r .wb)

/-- Pattern quadratic:
\b(?:o\(?\s*n\s*[\^*]\s*2\)?|n\s*[\^*]\s*2|n\s*\*\s*n)\b with re.I. -/
def reQuadratic : RE := bounded (altRE [
  seqRE [chI 'o', .opt (chC '('), wss, chI 'n', wss, clsPow, wss, chI '2', .opt (chC ')')],
  seqRE [chI 'n', wss, clsPow, wss, chI '2'],
  seqRE [chI 'n', wss, chC '*', wss, chI 'n']])

/-- Pattern exponential:
\b(?:o\(?\s*2\s*[\^]\s*n\)?|2\s*[\^]\s*n|exponential|2\^n)\b with re.I. -/
def reExponential : RE := bounded (altRE [
  seqRE [chI 'o', .opt (chC '('), wss, chI '2', wss, chC '^', wss, chI 'n', .opt (chC ')')],
  seqRE [chI '2', wss, chC '^', wss, chI 'n'],
  litI "exponential",
  seqRE [chI '2', chC '^', chI 'n']])

/-- Pattern linear: \b(?:o\(?\s*n\)?|linear(?:\s*time)?)\b with re.I. -/
def reLinear : RE := bounded (altRE [
  seqRE [chI 'o', .opt (chC '('), wss, chI 'n', .opt (chC ')')],
  seqRE [litI "linear", .opt (seqRE [wss, litI "time"])]])

/-- Pattern nlogn:
\b(?:n\s*(?:\*|\s)?\s*log\s*n|n\s*log\s*n|o\(?\s*n\s*log\s*n\)?)\b with re.I. -/
def reNlogn : RE := bounded (altRE [
  seqRE [chI 'n', wss, .opt clsSW, wss, litI "log", wss, chI 'n'],
  seqRE [chI 'n', wss, litI "log", wss, chI 'n'],
  seqRE [chI 'o', .opt (chC '('), wss, chI 'n', wss, litI "log", wss, chI 'n', .opt (chC ')')]])

/-- Pattern vplusE:
\b(?:v\s*[\+&]\s*e|v\s*\+\s*e|v\+e|o\(?\s*v\s*\+\s*e\)?)\b with re.I. -/
def reVplusE : RE := bounded (altRE [
  seqRE [chI 'v', wss, clsPlusAmp, wss, chI 'e'],
  seqRE [chI 'v', wss, chC '+', wss, chI 'e'],
  seqRE [chI 'v', chC '+', chI 'e'],
  seqRE [chI 'o', .opt (chC '('), wss, chI 'v', wss, chC '+', wss, chI 'e', .opt (chC ')')]])

/-- Pattern n_k_logk:
\b(?:n\s*(?:\*|\s)?\s*k\s*(?:\*|\s)?\s*log\s*k|o\(?\s*n\s*\*\s*k\s*log\s*k\)?)\b
with re.I. -/
def reNKlogk : RE := bounded (altRE [
  seqRE [chI 'n', wss, .opt clsSW, wss, chI 'k', wss, .opt clsSW, wss, litI "log", wss, chI 'k'],
  seqRE [chI 'o', .opt (chC '('), wss, chI 'n', wss, chC '*', wss, chI 'k', wss, litI "log",
    wss, chI 'k', .opt (chC ')')]])

/-- Pattern n_k: \b(?:n\s*(?:\*|\s)\s*k|n\s+k)\b with re.I. -/
def reNK : RE := bounded (altRE [
  seqRE [chI 'n', wss, clsSW, wss, chI 'k'],
  seqRE [chI 'n', wsp, chI 'k']])

/-- Embedding of the COMPLEXITY_REGEX table of scorer.py, in its fixed
iteration order. -/
def COMPLEXITY_REGEX : List (String × RE) := [
  ("quadratic", reQuadratic),
  ("exponential", reExponential),
  ("linear", reLinear),
  ("nlogn", reNlogn),
  ("vplusE", reVplusE),
  ("n_k_logk", reNKlogk),
  ("n_k", reNK)]

/-- Embedding of scorer.py _regex_complexity_detect: the first table
entry whose pattern is found in the raw text, paired with "regex". -/
def regex_complexity_detect (text : String) : Option (String × String) :=
  (COMPLEXITY_REGEX.find? (fun kr => reSearch kr.2 text)).map (fun kr => (kr.1, "regex"))

/-! ## Phrase tables and pipeline stages -/

/-- Embedding of the PEER_INDICATORS table of scorer.py. -/
def PEER_INDICATORS : List (String × List String) := [
  ("complexity", ["o(n^2)", "o(n*n)", "n^2", "n2", "quadratic", "o(n^3)", "n log n",
    "o(n log n)", "o(nlogn)", "polynomial", "o(v*e)", "o(v+e)", "o(n * k log k)",
    "o(n*k*log k)", "o(n*k log k)", "exponential", "2^n", "o(2^n)"]),
  ("off_by_one", ["off-by-one", "off by one", "n-1", "n + 1", "n+1", "i <= n",
    "index out of range", "one too many", "off by"]),
  ("missing_base_case", ["base case", "if n == 1", "if n == 0", "no base case",
    "missing base", "if not lst", "null checks", "empty list", "empty lists",
    "don\x27t check empty", "won\x27t check empty", "won\x27t check", "skip empty",
    "forget base", "missing base case", "no base case"]),
  ("edge_case", ["edge case", "handle empty", "handle negative", "watch out for empty",
    "check for none", "negative", "fails with negative", "empty", "null", "ignoring",
    "odd/even", "odd vs even", "odd and even", "odd even", "odd vs even lengths",
    "odd vs even length"]),
  ("inefficient", ["nested loop", "nested loops", "pairwise",
    "compare each with every other", "pair wise", "inefficient", "n^2", "quadratic",
    "o(n log n)", "sorting each string", "sort each string", "sort each", "sorting each",
    "o(n * k log k)", "n * k log k", "n k log k"])]

/-- Embedding of the TEACHER_INDICATORS table of scorer.py. -/
def TEACHER_INDICATORS : List (String × List String) := [
  ("complexity", ["o(n)", "linear", "linear time", "o(2^n)", "2^n", "exponential",
    "o(n log n)", "o(v+e)", "o(v + e)", "o(n*k)", "o(n * k)"]),
  ("off_by_one", ["off-by-one", "off by one", "clarify whether n is 1-based", "one-based",
    "zero-based", "fix index", "use <= vs <", "off by"]),
  ("missing_base_case", ["base case", "handle empty", "return 0", "add a base case",
    "check for empty list", "base-case checks", "base case check"]),
  ("edge_case", ["edge case", "handle empty", "handle negative", "watch out for empty",
    "check for none", "null", "empty keys", "fails with negative", "bellman-ford",
    "odd/even", "odd vs even", "odd even", "odd/even splits"]),
  ("inefficient", ["optimize", "avoid nested", "two-pointer", "linear time", "o(n)",
    "use hashmap", "use memo", "use dp", "inefficient", "o(n*k)", "use letter counts",
    "letter counts", "count characters"])]

/-- The fuzzy threshold for phrases of more than two words. -/
def FUZZY_SCORE_THRESHOLD : Nat := 82

/-- The stricter fuzzy threshold for phrases of at most two words. -/
def SHORT_PHRASE_FUZZY_THRESHOLD : Nat := 88

/-- Python str.split with no argument, on strings. -/
def splitWords (s : String) : List String :=
  (splitWS s.data).map (fun w => String.mk w)

/-- Embedding of scorer.py _lemmatize_tokens in the fallback branch
(nlp is None): normalize then split on whitespace. -/
def fallbackLemmatize (text : String) : List String :=
  if text = "" then [] else splitWords (normalize_keep_paren text)

/-- Embedding of scorer.py _contains_any_substring: the first phrase, in
list order, that occurs verbatim (the raw phrase, not its normalized
form) inside the normalized text. -/
def contains_any_substring (text : String) (patterns : List String) : Option String :=
  patterns.find? (fun p => strContains (normalize_keep_paren text) p)

/-- Python " ".join on a list of strings. -/
def joinTokens (ts : List String) : String :=
  String.mk (joinSpace (ts.map String.data))

/-- The normalized whitespace-split tokens of a phrase:
_normalize_keep_paren(p).split(). -/
def phraseTokens (p : String) : List String :=
  splitWords (normalize_keep_paren p)

/-- The n-grams of the token sequence enumerated in the order of the
n-gram loops of _lemma_token_match: n from min(5, length) down to 1,
start position ascending, each joined by single spaces. -/
def gramsOf (tokens : List String) : List String :=
  ((List.range (min 5 tokens.length)).reverse.map (fun n => n + 1)).flatMap (fun n =>
    (List.range (tokens.length - n + 1)).map (fun i =>
      joinTokens ((tokens.drop i).take n)))

/-- Embedding of scorer.py _lemma_token_match, with the lemma function
passed explicitly: first the loop returning the first phrase all of
whose normalized tokens occur among the text lemmas, then the n-gram
loops returning the first phrase whose normalized form equals a
contiguous n-gram of the lemma sequence. -/
def lemma_token_match (lemmatize : String → List String) (text : String)
    (patterns : List String) : Option String :=
  let tokens := lemmatize text
  if tokens = [] then none
  else
    match patterns.find? (fun p => (phraseTokens p).all (fun pt => tokens.contains pt)) with
    | some p => some p
    | none =>
      (gramsOf tokens).findSome? (fun gram =>
        patterns.find? (fun p => normalize_keep_paren p == gram))

/-- Modelled from the spec: rapidfuzz process.extractOne is not code of
this repository; per section 4.4 it selects the single highest-scoring
phrase, ties broken by the first occurrence in the list (a later phrase
replaces the current best only with a strictly greater score). -/
def selectBest (f : String → Nat) : List String → Option (String × Nat)
  | [] => none
  | p :: rest =>
    match selectBest f rest with
    | none => some (p, f p)
    | some (q, s) => if f p < s then some (q, s) else some (p, f p)

/-- Embedding of scorer.py _fuzzy_match, with the similarity primitive
(rapidfuzz fuzz.token_sort_ratio) passed explicitly: normalize the text,
return none if empty, select the best-scoring phrase, drop a falsy
(empty) choice, then apply the adaptive threshold chosen by the word
count of the selected phrase. -/
def fuzzy_match (scorer : String → String → Nat) (text : String)
    (patterns : List String) : Option (String × Nat) :=
  let txt := normalize_keep_paren text
  if txt = "" then none
  else
    match selectBest (scorer txt) patterns with
    | none => none
    | some (choice, score) =>
      if choice = "" then none
      else
        let threshold := if (splitWS choice.data).length ≤ 2
          then SHORT_PHRASE_FUZZY_THRESHOLD else FUZZY_SCORE_THRESHOLD
        if threshold ≤ score then some (choice, score) else none

/-- Python truthiness of an optional string: present and non-empty
(the code tests if sub: and if lm: on the stage results). -/
def truthy : Option String → Bool
  | some s => s != ""
  | none => false

/-- Embedding of scorer.py _matches_any: empty text short-circuit, then
the regex complexity detector over the raw text, then substring, lemma
and fuzzy stages, each guarded by Python truthiness of its result. -/
def matches_any (lemmatize : String → List String) (scorer : String → String → Nat)
    (text : String) (patterns : List String) : Option (String × String) :=
  if text = "" then none
  else
    match regex_complexity_detect text with
    | some reg => some (reg.1, "regex_complexity")
    | none =>
      let sub := contains_any_substring text patterns
      if truthy sub then some (sub.getD "", "substr")
      else
        let lm := lemma_token_match lemmatize text patterns
        if truthy lm then some (lm.getD "", "lemma")
        else
          match fuzzy_match scorer text patterns with
          | some (pattern, score) => some (pattern, "fuzzy:" ++ toString score)
          | none => none

/-- The per-category result triple built by score_pair from a stage
result: (bool(r), r[0] if r else None, r[1] if r else None). -/
def entryOf : Option (String × String) → Bool × Option String × Option String
  | some r => (true, some r.1, some r.2)
  | none => (false, none, none)

/-- Python dict.get(m, []) on an indicator table. -/
def lookupInd (table : List (String × List String)) (m : String) : List String :=
  ((table.find? (fun kv => kv.1 == m)).map (fun kv => kv.2)).getD []

/-- Dictionary lookup in a result mapping (the mappings built by
score_pair bind each requested category exactly once, so the first
binding is the binding). -/
def lookupEntry (table : List (String × (Bool × Option String × Option String)))
    (m : String) : Bool × Option String × Option String :=
  ((table.find? (fun kv => kv.1 == m)).map (fun kv => kv.2)).getD (false, none, none)

/-- The result of score_pair: the two per-category mappings and the
aggregate pass flag. -/
structure ScoreResult where
  peer_detected : List (String × (Bool × Option String × Option String))
  teacher_fixed : List (String × (Bool × Option String × Option String))
  pass : Bool
deriving DecidableEq

/-- Embedding of scorer.py score_pair, with the lemma function and the
similarity primitive passed explicitly. -/
def score_pair (lemmatize : String → List String) (scorer : String → String → Nat)
    (peer_text teacher_text : String) (expected_mistakes : List String) : ScoreResult :=
  let peer_detected := expected_mistakes.map (fun m =>
    (m, entryOf (matches_any lemmatize scorer peer_text (lookupInd PEER_INDICATORS m))))
  let teacher_fixed := expected_mistakes.map (fun m =>
    (m, entryOf (matches_any lemmatize scorer teacher_text (lookupInd TEACHER_INDICATORS m))))
  let overall_pass := expected_mistakes.all (fun m =>
    (lookupEntry peer_detected m).1 && (lookupEntry teacher_fixed m).1)
  ⟨peer_detected, teacher_fixed, overall_pass⟩

/-- Restatement of the lemma/token stage following the words of claim
C8: the first phrase, in phrase-list order, such that either every one
of its normalized whitespace-split tokens appears among the text lemmas,
or its normalized form equals some contiguous n-gram of the lemma
sequence (n from min(5, text length) down to 1); none when the text
yields no tokens.  Compared with lemma_token_match below. -/
def lemma_token_match_spec (lemmatize : String → List String) (text : String)
    (patterns : List String) : Option String :=
  let tokens := lemmatize text
  if tokens = [] then none
  else
    patterns.find? (fun p =>
      (phraseTokens p).all (fun pt => tokens.contains pt) ||
        (gramsOf tokens).contains (normalize_keep_paren p))

/-- A trivial similarity primitive (score zero everywhere), used to
instantiate the scorer parameter in concrete witnesses whose texts never
reach the fuzzy stage. -/
def constScorer : String → String → Nat := fun _ _ => 0

/-! ## Character-level lemmas -/

theorem char_toNat_inj {c d : Char} (h : c.toNat = d.toNat) : c = d := by
  rw [← Char.ofNat_toNat c, h, Char.ofNat_toNat]

theorem char_eq_iff_toNat {c d : Char} : c = d ↔ c.toNat = d.toNat :=
  ⟨fun h => h ▸ rfl, char_toNat_inj⟩

theorem char_toNat_ofNat {n : Nat} (h : n < 55296) : (Char.ofNat n).toNat = n := by
  unfold Char.ofNat
  rw [dif_pos (Or.inl h)]
  rfl

theorem char_beq_toNat (c d : Char) : (c == d) = (c.toNat == d.toNat) := by
  rw [Bool.eq_iff_iff, beq_iff_eq, beq_iff_eq]
  exact char_eq_iff_toNat

theorem lowerChar_toNat (c : Char) :
    (lowerChar c).toNat = if 65 ≤ c.toNat ∧ c.toNat ≤ 90 then c.toNat + 32 else c.toNat := by
  unfold lowerChar
  by_cases h : 65 ≤ c.toNat ∧ c.toNat ≤ 90
  · have hb : (65 ≤ c.toNat && c.toNat ≤ 90) = true := by simp [h.1, h.2]
    rw [if_pos hb, if_pos h, char_toNat_ofNat (by omega)]
  · have hb : ¬((65 ≤ c.toNat && c.toNat ≤ 90) = true) := by simpa using h
    rw [if_neg hb, if_neg h]

theorem lowerChar_of_upper {c : Char} (h : 65 ≤ c.toNat ∧ c.toNat ≤ 90) :
    (lowerChar c).toNat = c.toNat + 32 := by
  rw [lowerChar_toNat, if_pos h]

theorem lowerChar_of_other {c : Char} (h : ¬(65 ≤ c.toNat ∧ c.toNat ≤ 90)) :
    lowerChar c = c := by
  unfold lowerChar
  have hb : ¬((65 ≤ c.toNat && c.toNat ≤ 90) = true) := by simpa using h
  rw [if_neg hb]

theorem toNat_c32 : (' ').toNat = 32 := rfl
theorem toNat_c9 : ('\t').toNat = 9 := rfl
theorem toNat_c10 : ('\n').toNat = 10 := rfl
theorem toNat_c13 : ('\r').toNat = 13 := rfl
theorem toNat_c11 : ('\x0b').toNat = 11 := rfl
theorem toNat_c12 : ('\x0c').toNat = 12 := rfl
theorem toNat_c118 : ('v').toNat = 118 := rfl
theorem toNat_c86 : ('V').toNat = 86 := rfl
theorem toNat_c115 : ('s').toNat = 115 := rfl
theorem toNat_c83 : ('S').toNat = 83 := rfl
theorem toNat_c94 : ('^').toNat = 94 := rfl
theorem toNat_c42 : ('*').toNat = 42 := rfl
theorem toNat_c40 : ('(').toNat = 40 := rfl
theorem toNat_c41 : (')').toNat = 41 := rfl
theorem toNat_c43 : ('+').toNat = 43 := rfl
theorem toNat_c45 : ('-').toNat = 45 := rfl
theorem toNat_c47 : ('/').toNat = 47 := rfl
theorem toNat_c95 : ('_').toNat = 95 := rfl

theorem isWS_iff {c : Char} : isWS c = true ↔
    (c.toNat = 32 ∨ c.toNat = 9 ∨ c.toNat = 10 ∨ c.toNat = 13 ∨ c.toNat = 11 ∨ c.toNat = 12) := by
  unfold isWS
  simp only [Bool.or_eq_true, beq_iff_eq, char_eq_iff_toNat, toNat_c32, toNat_c9,
    toNat_c10, toNat_c13, toNat_c11, toNat_c12]
  omega

theorem isV_iff {c : Char} : isV c = true ↔ (c.toNat = 118 ∨ c.toNat = 86) := by
  unfold isV
  simp only [Bool.or_eq_true, beq_iff_eq, char_eq_iff_toNat, toNat_c118, toNat_c86]

theorem isS_iff {c : Char} : isS c = true ↔ (c.toNat = 115 ∨ c.toNat = 83) := by
  unfold isS
  simp only [Bool.or_eq_true, beq_iff_eq, char_eq_iff_toNat, toNat_c115, toNat_c83]

theorem allowedChar_iff {c : Char} : allowedChar c = true ↔
    ((48 ≤ c.toNat ∧ c.toNat ≤ 57) ∨ (65 ≤ c.toNat ∧ c.toNat ≤ 90) ∨
      (97 ≤ c.toNat ∧ c.toNat ≤ 122) ∨
      (c.toNat = 32 ∨ c.toNat = 9 ∨ c.toNat = 10 ∨ c.toNat = 13 ∨ c.toNat = 11 ∨ c.toNat = 12) ∨
      c.toNat = 94 ∨ c.toNat = 42 ∨ c.toNat = 40 ∨ c.toNat = 41 ∨ c.toNat = 43 ∨ c.toNat = 45) := by
  unfold allowedChar
  simp only [Bool.or_eq_true, Bool.and_eq_true, decide_eq_true_eq, beq_iff_eq,
    char_eq_iff_toNat, isWS_iff, toNat_c94, toNat_c42, toNat_c40, toNat_c41,
    toNat_c43, toNat_c45]
  omega

theorem isWS_lowerChar (c : Char) : isWS (lowerChar c) = isWS c := by
  by_cases h : 65 ≤ c.toNat ∧ c.toNat ≤ 90
  · have h1 := lowerChar_of_upper h
    rw [Bool.eq_iff_iff, isWS_iff, isWS_iff, h1]
    omega
  · rw [lowerChar_of_other h]

theorem isV_lowerChar (c : Char) : isV (lowerChar c) = isV c := by
  by_cases h : 65 ≤ c.toNat ∧ c.toNat ≤ 90
  · have h1 := lowerChar_of_upper h
    rw [Bool.eq_iff_iff, isV_iff, isV_iff, h1]
    omega
  · rw [lowerChar_of_other h]

theorem isS_lowerChar (c : Char) : isS (lowerChar c) = isS c := by
  by_cases h : 65 ≤ c.toNat ∧ c.toNat ≤ 90
  · have h1 := lowerChar_of_upper h
    rw [Bool.eq_iff_iff, isS_iff, isS_iff, h1]
    omega
  · rw [lowerChar_of_other h]

theorem allowedChar_lowerChar {c : Char} (h : allowedChar c = true) :
    allowedChar (lowerChar c) = true := by
  by_cases hu : 65 ≤ c.toNat ∧ c.toNat ≤ 90
  · have h1 := lowerChar_of_upper hu
    rw [allowedChar_iff, h1]
    omega
  · rw [lowerChar_of_other hu]; exact h

theorem lowerChar_idem (c : Char) : lowerChar (lowerChar c) = lowerChar c := by
  by_cases hu : 65 ≤ c.toNat ∧ c.toNat ≤ 90
  · apply lowerChar_of_other
    rw [lowerChar_of_upper hu]
    omega
  · rw [lowerChar_of_other hu]
    exact lowerChar_of_other hu

theorem beq_slash_false_of_allowed {c : Char} (h : allowedChar c = true) :
    (c == '/') = false := by
  rw [char_beq_toNat]
  have h47 : c.toNat ≠ 47 := by rw [allowedChar_iff] at h; omega
  simpa using h47


/-! ## Structure of splitWS and joinSpace -/

theorem splitWS_nil : splitWS [] = [] := rfl

theorem splitWSAux_acc : ∀ (l acc : List Char), acc ≠ [] →
    splitWSAux l acc =
      (acc.reverse ++ l.takeWhile (fun d => !isWS d)) ::
        splitWS (l.dropWhile (fun d => !isWS d)) := by
  intro l
  induction l with
  | nil =>
    intro acc hacc
    have hne : acc.isEmpty = false := by
      cases acc with
      | nil => exact absurd rfl hacc
      | cons a as => rfl
    simp [splitWSAux, hne, splitWS]
  | cons c rest ih =>
    intro acc hacc
    have hne : acc.isEmpty = false := by
      cases acc with
      | nil => exact absurd rfl hacc
      | cons a as => rfl
    by_cases hc : isWS c = true
    · have h1 : splitWSAux (c :: rest) acc = acc.reverse :: splitWSAux rest [] := by
        simp [splitWSAux, hc, hne]
      have h2 : splitWS (c :: rest) = splitWSAux rest [] := by
        simp [splitWS, splitWSAux, hc]
      have h3 : (c :: rest).takeWhile (fun d => !isWS d) = [] := by
        simp [List.takeWhile_cons, hc]
      have h4 : (c :: rest).dropWhile (fun d => !isWS d) = c :: rest := by
        simp [List.dropWhile_cons, hc]
      rw [h1, h3, h4, h2]
      simp
    · have hc' : isWS c = false := by simpa using hc
      simp only [splitWSAux, hc', Bool.false_eq_true, if_false, List.takeWhile_cons,
        List.dropWhile_cons]
      rw [ih (c :: acc) (by simp)]
      rw [if_pos (by simp [hc']), if_pos (by simp [hc'])]
      simp

theorem splitWS_cons_ws {c : Char} {rest : List Char} (h : isWS c = true) :
    splitWS (c :: rest) = splitWS rest := by
  simp [splitWS, splitWSAux, h]

theorem splitWS_cons_nws {c : Char} {rest : List Char} (h : isWS c = false) :
    splitWS (c :: rest) =
      (c :: rest.takeWhile (fun d => !isWS d)) ::
        splitWS (rest.dropWhile (fun d => !isWS d)) := by
  have h1 : splitWS (c :: rest) = splitWSAux rest [c] := by
    simp [splitWS, splitWSAux, h]
  rw [h1, splitWSAux_acc rest [c] (by simp)]
  simp

/-- Induction principle following the word structure of splitWS. -/
theorem splitWS_ind {motive : List Char → Prop} (h0 : motive [])
    (hws : ∀ c rest, isWS c = true → motive rest → motive (c :: rest))
    (hnws : ∀ c rest, isWS c = false →
      motive (rest.dropWhile (fun d => !isWS d)) → motive (c :: rest)) :
    ∀ l, motive l := by
  have key : ∀ n (l : List Char), l.length ≤ n → motive l := by
    intro n
    induction n with
    | zero =>
      intro l hl
      cases l with
      | nil => exact h0
      | cons c rest => simp at hl
    | succ n ih =>
      intro l hl
      cases l with
      | nil => exact h0
      | cons c rest =>
        simp only [List.length_cons] at hl
        by_cases hc : isWS c = true
        · exact hws c rest hc (ih rest (by omega))
        · have hsub : List.Sublist (rest.dropWhile (fun d => !isWS d)) rest :=
            List.dropWhile_sublist _
          have hlen := hsub.length_le
          exact hnws c rest (by simpa using hc) (ih _ (by omega))
  exact fun l => key l.length l (le_refl _)

theorem splitWS_wf : ∀ l, ∀ w ∈ splitWS l, w ≠ [] ∧ ∀ c ∈ w, isWS c = false := by
  refine splitWS_ind ?_ ?_ ?_
  · intro w hw
    simp [splitWS_nil] at hw
  · intro c rest hc ih w hw
    rw [splitWS_cons_ws hc] at hw
    exact ih w hw
  · intro c rest hc ih w hw
    rw [splitWS_cons_nws hc] at hw
    rcases List.mem_cons.mp hw with hw | hw
    · subst hw
      refine ⟨by simp, ?_⟩
      intro d hd
      rcases hd with _ | hd
      · exact hc
      · have hp := List.mem_takeWhile_imp (by assumption :
          d ∈ rest.takeWhile (fun d => !isWS d))
        simpa using hp
    · exact ih w hw

theorem splitWS_part : ∀ l, ∀ w ∈ splitWS l, w <:+: l := by
  refine splitWS_ind ?_ ?_ ?_
  · intro w hw
    simp [splitWS_nil] at hw
  · intro c rest hc ih w hw
    rw [splitWS_cons_ws hc] at hw
    obtain ⟨s, t, hst⟩ := ih w hw
    exact ⟨c :: s, t, by simp [hst]⟩
  · intro c rest hc ih w hw
    rw [splitWS_cons_nws hc] at hw
    rcases List.mem_cons.mp hw with hw | hw
    · subst hw
      have hpre : rest.takeWhile (fun d => !isWS d) <+: rest := List.takeWhile_prefix _
      obtain ⟨t, ht⟩ := hpre
      exact ⟨[], t, by simpa using congrArg (fun u => c :: u) ht⟩
    · obtain ⟨s, t, hst⟩ := ih w hw
      obtain ⟨u, hu⟩ := @List.dropWhile_suffix Char rest (fun d => !isWS d)
      refine ⟨c :: u ++ s, t, ?_⟩
      have : u ++ (s ++ w ++ t) = rest := by rw [hst, hu]
      simp only [List.cons_append, List.append_assoc] at this ⊢
      rw [this]

theorem takeWhile_append_stop {α : Type} {p : α → Bool} :
    ∀ (a : List α), (∀ x ∈ a, p x = true) → ∀ (c : α), p c = false → ∀ (b : List α),
      (a ++ c :: b).takeWhile p = a := by
  intro a
  induction a with
  | nil => intro _ c hc b; simp [List.takeWhile_cons, hc]
  | cons x xs ih =>
    intro ha c hc b
    have hx : p x = true := ha x (by simp)
    simp only [List.cons_append, List.takeWhile_cons, hx, if_true]
    rw [ih (fun y hy => ha y (by simp [hy])) c hc b]

theorem dropWhile_append_stop {α : Type} {p : α → Bool} :
    ∀ (a : List α), (∀ x ∈ a, p x = true) → ∀ (c : α), p c = false → ∀ (b : List α),
      (a ++ c :: b).dropWhile p = c :: b := by
  intro a
  induction a with
  | nil => intro _ c hc b; simp [List.dropWhile_cons, hc]
  | cons x xs ih =>
    intro ha c hc b
    have hx : p x = true := ha x (by simp)
    simp only [List.cons_append, List.dropWhile_cons, hx, if_true]
    exact ih (fun y hy => ha y (by simp [hy])) c hc b

theorem splitWS_joinSpace (ws : List (List Char))
    (h : ∀ w ∈ ws, w ≠ [] ∧ ∀ c ∈ w, isWS c = false) :
    splitWS (joinSpace ws) = ws := by
  induction ws with
  | nil => rfl
  | cons w ws ih =>
    obtain ⟨hne, hch⟩ := h w (by simp)
    cases w with
    | nil => exact absurd rfl hne
    | cons c cs =>
      have hc : isWS c = false := hch c (by simp)
      have hcs : ∀ x ∈ cs, (fun d => !isWS d) x = true := by
        intro x hx
        simp [hch x (by simp [hx])]
      cases ws with
      | nil =>
        show splitWS (c :: cs) = [c :: cs]
        rw [splitWS_cons_nws hc,
          List.takeWhile_eq_self_iff.mpr hcs,
          List.dropWhile_eq_nil_iff.mpr hcs,
          splitWS_nil]
      | cons v vs =>
        show splitWS ((c :: cs) ++ ' ' :: joinSpace (v :: vs)) = (c :: cs) :: v :: vs
        have hsp : (fun (d : Char) => !isWS d) ' ' = false := by decide
        rw [List.cons_append, splitWS_cons_nws hc,
          takeWhile_append_stop cs hcs ' ' hsp (joinSpace (v :: vs)),
          dropWhile_append_stop cs hcs ' ' hsp (joinSpace (v :: vs)),
          splitWS_cons_ws (by decide),
          ih (fun u hu => h u (by simp [hu]))]

theorem mem_joinSpace {c : Char} : ∀ ws, c ∈ joinSpace ws → (∃ w ∈ ws, c ∈ w) ∨ c = ' ' := by
  intro ws
  induction ws with
  | nil => intro h; simp [joinSpace] at h
  | cons w ws ih =>
    intro h
    cases ws with
    | nil => exact Or.inl ⟨w, by simp, h⟩
    | cons v vs =>
      rw [show joinSpace (w :: v :: vs) = w ++ ' ' :: joinSpace (v :: vs) from rfl,
        List.mem_append] at h
      rcases h with h | h
      · exact Or.inl ⟨w, by simp, h⟩
      · rcases List.mem_cons.mp h with h | h
        · exact Or.inr h
        · rcases ih h with ⟨u, hu, hcu⟩ | h
          · exact Or.inl ⟨u, by simp [hu], hcu⟩
          · exact Or.inr h

theorem map_id_of_mem {α : Type} {f : α → α} : ∀ l : List α, (∀ c ∈ l, f c = c) → l.map f = l := by
  intro l
  induction l with
  | nil => intro _; rfl
  | cons x xs ih =>
    intro h
    simp only [List.map_cons, h x (by simp), ih (fun c hc => h c (by simp [hc]))]

theorem joinSpace_ne_nil {v : List Char} {vs : List (List Char)} (hv : v ≠ []) :
    joinSpace (v :: vs) ≠ [] := by
  cases vs with
  | nil => exact hv
  | cons u us =>
    show v ++ ' ' :: joinSpace (u :: us) ≠ []
    simp

theorem joinSpace_head {ws : List (List Char)}
    (h : ∀ w ∈ ws, w ≠ [] ∧ ∀ c ∈ w, isWS c = false) :
    ∀ c, (joinSpace ws).head? = some c → isWS c = false := by
  induction ws with
  | nil => intro c hc; simp [joinSpace] at hc
  | cons w ws ih =>
    intro c hc
    obtain ⟨hne, hch⟩ := h w (by simp)
    cases w with
    | nil => exact absurd rfl hne
    | cons x xs =>
      cases ws with
      | nil =>
        have hxc : x = c := by simpa [joinSpace] using hc
        exact hxc ▸ hch x (by simp)
      | cons v vs =>
        have hxc : x = c := by
          have hj : joinSpace ((x :: xs) :: v :: vs) = x :: (xs ++ ' ' :: joinSpace (v :: vs)) := rfl
          rw [hj] at hc
          simpa using hc
        exact hxc ▸ hch x (by simp)

theorem joinSpace_getLast {ws : List (List Char)}
    (h : ∀ w ∈ ws, w ≠ [] ∧ ∀ c ∈ w, isWS c = false) :
    ∀ c, (joinSpace ws).getLast? = some c → isWS c = false := by
  induction ws with
  | nil => intro c hc; simp [joinSpace] at hc
  | cons w ws ih =>
    intro c hc
    obtain ⟨hne, hch⟩ := h w (by simp)
    cases ws with
    | nil =>
      have hcm : c ∈ w := by
        have : joinSpace [w] = w := rfl
        rw [this] at hc
        exact List.mem_of_getLast?_eq_some hc
      exact hch c hcm
    | cons v vs =>
      have hj : joinSpace (w :: v :: vs) = w ++ ' ' :: joinSpace (v :: vs) := rfl
      rw [hj, List.getLast?_append] at hc
      have hvne : v ≠ [] := (h v (by simp)).1
      have hJne : joinSpace (v :: vs) ≠ [] := joinSpace_ne_nil hvne
      have hlast : (' ' :: joinSpace (v :: vs)).getLast? = (joinSpace (v :: vs)).getLast? := by
        cases hJ : joinSpace (v :: vs) with
        | nil => exact absurd hJ hJne
        | cons a t => simp [List.getLast?_cons_cons]
      rw [hlast] at hc
      cases hg : (joinSpace (v :: vs)).getLast? with
      | none => exact absurd (List.getLast?_eq_none_iff.mp hg) hJne
      | some a =>
        rw [hg] at hc
        have hac : a = c := by simpa using hc
        subst hac
        exact ih (fun u hu => h u (by simp [hu])) a hg

theorem stripL_eq_self {y : List Char}
    (h1 : ∀ c, y.head? = some c → isWS c = false)
    (h2 : ∀ c, y.getLast? = some c → isWS c = false) : stripL y = y := by
  unfold stripL
  have d1 : y.dropWhile isWS = y := by
    cases y with
    | nil => rfl
    | cons a t =>
      rw [List.dropWhile_cons, if_neg (by simp [h1 a rfl])]
  rw [d1]
  have d2 : y.reverse.dropWhile isWS = y.reverse := by
    cases hy : y.reverse with
    | nil => rfl
    | cons a t =>
      have ha : y.getLast? = some a := by
        rw [← List.head?_reverse, hy]
        rfl
      rw [List.dropWhile_cons, if_neg (by simp [h2 a ha])]
  rw [d2, List.reverse_reverse]

theorem lowerChar_space : lowerChar ' ' = ' ' := by decide

theorem lowerL_joinSpace : ∀ ws, lowerL (joinSpace ws) = joinSpace (ws.map lowerL) := by
  intro ws
  induction ws with
  | nil => rfl
  | cons w ws ih =>
    cases ws with
    | nil => rfl
    | cons v vs =>
      calc lowerL (w ++ ' ' :: joinSpace (v :: vs))
          = (w ++ ' ' :: joinSpace (v :: vs)).map lowerChar := rfl
        _ = w.map lowerChar ++ lowerChar ' ' :: (joinSpace (v :: vs)).map lowerChar := by
            rw [List.map_append, List.map_cons]
        _ = lowerL w ++ ' ' :: lowerL (joinSpace (v :: vs)) := by
            rw [lowerChar_space]
            rfl
        _ = lowerL w ++ ' ' :: joinSpace (List.map lowerL (v :: vs)) := by rw [ih]

/-! ## The noVS predicate and the vs substitution -/

theorem noVS_tail : ∀ {c : Char} {l : List Char}, noVS (c :: l) = true → noVS l = true := by
  intro c l h
  cases l with
  | nil => rfl
  | cons d t =>
    have h' : (!(isV c && isS d) && noVS (d :: t)) = true := h
    simp only [Bool.and_eq_true] at h'
    exact h'.2

theorem noVS_head {c d : Char} {l : List Char} (h : noVS (c :: d :: l) = true) :
    (isV c && isS d) = false := by
  have h' : (!(isV c && isS d) && noVS (d :: l)) = true := h
  simp only [Bool.and_eq_true] at h'
  rcases (by simpa using h'.1 : isV c = false ∨ isS d = false) with hx | hx
  · rw [hx, Bool.false_and]
  · rw [hx, Bool.and_false]

theorem noVS_append_right : ∀ (a b : List Char), noVS (a ++ b) = true → noVS b = true := by
  intro a
  induction a with
  | nil => exact fun b h => h
  | cons x xs ih => exact fun b h => ih b (noVS_tail h)

theorem noVS_append_left : ∀ (a b : List Char), noVS (a ++ b) = true → noVS a = true := by
  intro a
  induction a with
  | nil => intro _ _; rfl
  | cons x xs ih =>
    intro b h
    cases xs with
    | nil => rfl
    | cons y ys =>
      have hh : noVS (x :: y :: (ys ++ b)) = true := by simpa using h
      have h1 : noVS (y :: ys) = true := ih b (noVS_tail hh)
      have hcond := noVS_head hh
      show (!(isV x && isS y) && noVS (y :: ys)) = true
      rw [hcond, h1]
      rfl

theorem noVS_of_part {a l : List Char} (h : a <:+: l) (hl : noVS l = true) : noVS a = true := by
  obtain ⟨s, t, hst⟩ := h
  subst hst
  have h1 : noVS (a ++ t) = true := by
    apply noVS_append_right s
    rw [← List.append_assoc]
    exact hl
  exact noVS_append_left a t h1

theorem noVS_map {f : Char → Char} (hfv : ∀ c, isV (f c) = true → isV c = true)
    (hfs : ∀ c, isS (f c) = true → isS c = true) :
    ∀ l, noVS l = true → noVS (l.map f) = true := by
  intro l
  induction l with
  | nil => intro _; rfl
  | cons x xs ih =>
    intro h
    cases xs with
    | nil => rfl
    | cons y ys =>
      have ih' : noVS (f y :: List.map f ys) = true := by
        have := ih (noVS_tail h)
        simpa using this
      have hcond : (isV (f x) && isS (f y)) = false := by
        cases hv : isV (f x) with
        | false => rfl
        | true =>
          cases hs : isS (f y) with
          | false => rfl
          | true =>
            have hx := hfv x hv
            have hy := hfs y hs
            have := noVS_head h
            rw [hx, hy] at this
            exact absurd this (by simp)
      show (!(isV (f x) && isS (f y)) && noVS (f y :: List.map f ys)) = true
      rw [hcond, ih']
      rfl

theorem vsSubAux_id : ∀ (l : List Char) (prev : Option Char), noVS l = true →
    vsSubAux prev l = l := by
  intro l
  induction l with
  | nil => intro _ _; rfl
  | cons c1 t ih =>
    intro prev h
    cases t with
    | nil => rfl
    | cons c2 rest =>
      have hcond := noVS_head h
      show vsSubAux prev (c1 :: c2 :: rest) = c1 :: c2 :: rest
      have hif : (isV c1 && isS c2 && !isWordOpt prev && !isWordOpt rest.head?) = false := by
        rw [hcond]
        rfl
      simp only [vsSubAux, hif, Bool.false_eq_true, if_false]
      rw [ih (some c1) (noVS_tail h)]

theorem noVS_append_single {b : List Char} {c : Char} (hcv : isV c = false)
    (hcs : isS c = false) : ∀ a, noVS a = true → noVS b = true →
    noVS (a ++ c :: b) = true := by
  intro a
  induction a with
  | nil =>
    intro _ hb
    cases b with
    | nil => rfl
    | cons d t =>
      show (!(isV c && isS d) && noVS (d :: t)) = true
      rw [hcv, hb]
      rfl
  | cons x xs ih =>
    intro ha hb
    cases xs with
    | nil =>
      have ht : noVS (c :: b) = true := ih rfl hb
      show (!(isV x && isS c) && noVS (c :: b)) = true
      rw [hcs, ht, Bool.and_false]
      rfl
    | cons y ys =>
      have hht : noVS ((y :: ys) ++ c :: b) = true := ih (noVS_tail ha) hb
      have hcond := noVS_head ha
      have hh : noVS (y :: (ys ++ c :: b)) = true := by simpa using hht
      show (!(isV x && isS y) && noVS (y :: (ys ++ c :: b))) = true
      rw [hcond, hh]
      rfl

theorem noVS_joinSpace : ∀ ws, (∀ w ∈ ws, noVS w = true) → noVS (joinSpace ws) = true := by
  intro ws
  induction ws with
  | nil => intro _; rfl
  | cons w ws ih =>
    intro h
    cases ws with
    | nil => exact h w (by simp)
    | cons v vs =>
      show noVS (w ++ ' ' :: joinSpace (v :: vs)) = true
      exact noVS_append_single (by decide) (by decide) w (h w (by simp))
        (ih (fun u hu => h u (by simp [hu])))

/-! ## Fixed points of the normalizer -/

theorem stripL_part (l : List Char) : stripL l <:+: l := by
  obtain ⟨u, hu⟩ := @List.dropWhile_suffix Char l isWS
  obtain ⟨u2, hu2⟩ := @List.dropWhile_suffix Char (l.dropWhile isWS).reverse isWS
  refine ⟨u, u2.reverse, ?_⟩
  have hd : (l.dropWhile isWS) = stripL l ++ u2.reverse := by
    have := congrArg List.reverse hu2
    simpa [stripL] using this.symm
  calc u ++ stripL l ++ u2.reverse
      = u ++ (stripL l ++ u2.reverse) := by rw [List.append_assoc]
    _ = u ++ l.dropWhile isWS := by rw [← hd]
    _ = l := hu

theorem mem_filterA {c : Char} {l : List Char} (h : c ∈ filterA l) : allowedChar c = true := by
  obtain ⟨d, _, hcd⟩ := List.mem_map.mp h
  by_cases had : allowedChar d = true
  · rw [if_pos had] at hcd
    exact hcd ▸ had
  · rw [if_neg had] at hcd
    subst hcd
    decide

theorem slashRep_noVS {l : List Char} (h : noVS l = true) : noVS (slashRep l) = true := by
  refine noVS_map ?_ ?_ l h
  · intro c hc
    by_cases hs : (c == '/') = true
    · rw [if_pos hs] at hc
      exact absurd hc (by decide)
    · rwa [if_neg hs] at hc
  · intro c hc
    by_cases hs : (c == '/') = true
    · rw [if_pos hs] at hc
      exact absurd hc (by decide)
    · rwa [if_neg hs] at hc

theorem filterA_noVS {l : List Char} (h : noVS l = true) : noVS (filterA l) = true := by
  refine noVS_map ?_ ?_ l h
  · intro c hc
    by_cases ha : allowedChar c = true
    · rwa [if_pos ha] at hc
    · rw [if_neg ha] at hc
      exact absurd hc (by decide)
  · intro c hc
    by_cases ha : allowedChar c = true
    · rwa [if_pos ha] at hc
    · rw [if_neg ha] at hc
      exact absurd hc (by decide)

theorem lowerL_noVS {l : List Char} (h : noVS l = true) : noVS (lowerL l) = true := by
  refine noVS_map ?_ ?_ l h
  · intro c hc
    rwa [isV_lowerChar] at hc
  · intro c hc
    rwa [isS_lowerChar] at hc

theorem normalizeL_noVS_eq {l : List Char} (h : noVS l = true) :
    normalizeL l = lowerL (joinSpace (splitWS (filterA (slashRep (stripL l))))) := by
  unfold normalizeL
  rw [vsSubAux_id _ none (slashRep_noVS (noVS_of_part (stripL_part l) h))]

theorem normalizeL_fixed (m : List Char) (hm : noVS m = true) :
    normalizeL (lowerL (joinSpace (splitWS (filterA m)))) =
      lowerL (joinSpace (splitWS (filterA m))) := by
  have hwf0 : ∀ w ∈ splitWS (filterA m), w ≠ [] ∧ ∀ c ∈ w, isWS c = false :=
    splitWS_wf (filterA m)
  have hwfY : ∀ w ∈ (splitWS (filterA m)).map lowerL,
      w ≠ [] ∧ ∀ c ∈ w, isWS c = false := by
    intro w hw
    obtain ⟨w0, hw0, rfl⟩ := List.mem_map.mp hw
    obtain ⟨hne, hch⟩ := hwf0 w0 hw0
    refine ⟨by simpa [lowerL] using hne, ?_⟩
    intro c hc
    obtain ⟨c0, hc0, rfl⟩ := List.mem_map.mp hc
    rw [isWS_lowerChar]
    exact hch c0 hc0
  have hyJ : lowerL (joinSpace (splitWS (filterA m))) =
      joinSpace ((splitWS (filterA m)).map lowerL) := lowerL_joinSpace _
  have hchar : ∀ c ∈ lowerL (joinSpace (splitWS (filterA m))),
      allowedChar c = true ∧ lowerChar c = c := by
    intro c hc
    rw [hyJ] at hc
    rcases mem_joinSpace _ hc with ⟨w, hwm, hcw⟩ | hsp
    · obtain ⟨w0, hw0, rfl⟩ := List.mem_map.mp hwm
      obtain ⟨c0, hc0, rfl⟩ := List.mem_map.mp hcw
      have hinf : w0 <:+: filterA m := splitWS_part (filterA m) w0 hw0
      have ha0 : allowedChar c0 = true := mem_filterA (hinf.subset hc0)
      exact ⟨allowedChar_lowerChar ha0, lowerChar_idem c0⟩
    · subst hsp
      exact ⟨by decide, lowerChar_space⟩
  have hnoVSy : noVS (lowerL (joinSpace (splitWS (filterA m)))) = true := by
    rw [hyJ]
    apply noVS_joinSpace
    intro w hw
    obtain ⟨w0, hw0, rfl⟩ := List.mem_map.mp hw
    exact lowerL_noVS
      (noVS_of_part (splitWS_part (filterA m) w0 hw0) (filterA_noVS hm))
  have s1 : stripL (lowerL (joinSpace (splitWS (filterA m)))) =
      lowerL (joinSpace (splitWS (filterA m))) := by
    apply stripL_eq_self
    · intro c hc
      rw [hyJ] at hc
      exact joinSpace_head hwfY c hc
    · intro c hc
      rw [hyJ] at hc
      exact joinSpace_getLast hwfY c hc
  have s2 : slashRep (lowerL (joinSpace (splitWS (filterA m)))) =
      lowerL (joinSpace (splitWS (filterA m))) := by
    apply map_id_of_mem
    intro c hc
    have := beq_slash_false_of_allowed (hchar c hc).1
    simp [this]
  have s4 : filterA (lowerL (joinSpace (splitWS (filterA m)))) =
      lowerL (joinSpace (splitWS (filterA m))) := by
    apply map_id_of_mem
    intro c hc
    rw [if_pos (hchar c hc).1]
  have s5 : splitWS (lowerL (joinSpace (splitWS (filterA m)))) =
      (splitWS (filterA m)).map lowerL := by
    rw [hyJ]
    exact splitWS_joinSpace _ hwfY
  have s6 : lowerL (lowerL (joinSpace (splitWS (filterA m)))) =
      lowerL (joinSpace (splitWS (filterA m))) := by
    apply map_id_of_mem
    intro c hc
    exact (hchar c hc).2
  unfold normalizeL
  rw [s1, s2, vsSubAux_id _ none hnoVSy, s4, s5, ← hyJ, s6]

theorem normalizeL_idem {l : List Char} (h : noVS l = true) :
    normalizeL (normalizeL l) = normalizeL l := by
  have hvsw : noVS (slashRep (stripL l)) = true :=
    slashRep_noVS (noVS_of_part (stripL_part l) h)
  rw [normalizeL_noVS_eq h]
  exact normalizeL_fixed (slashRep (stripL l)) hvsw

/-! ## First-match (find?) and best-match (selectBest) characterizations -/

theorem find?_decomp {α : Type} {p : α → Bool} :
    ∀ {l : List α} {a : α}, l.find? p = some a →
      p a = true ∧ ∃ l1 l2, l = l1 ++ a :: l2 ∧ ∀ q ∈ l1, p q = false := by
  intro l
  induction l with
  | nil => intro a h; simp at h
  | cons x xs ih =>
    intro a h
    by_cases hx : p x = true
    · rw [List.find?_cons_of_pos xs hx] at h
      cases h
      exact ⟨hx, [], xs, rfl, by simp⟩
    · rw [List.find?_cons_of_neg xs hx] at h
      obtain ⟨hpa, l1, l2, hl, hl1⟩ := ih h
      refine ⟨hpa, x :: l1, l2, by rw [hl]; rfl, ?_⟩
      intro q hq
      rcases List.mem_cons.mp hq with hqx | hq
      · subst hqx
        simpa using hx
      · exact hl1 q hq

theorem find?_of_decomp {α : Type} {p : α → Bool} (a : α) (ha : p a = true) :
    ∀ (l1 : List α), (∀ q ∈ l1, p q = false) → ∀ (l2 : List α),
      (l1 ++ a :: l2).find? p = some a := by
  intro l1
  induction l1 with
  | nil => intro _ l2; simpa using List.find?_cons_of_pos l2 ha
  | cons x xs ih =>
    intro h l2
    have hx : p x = false := h x (by simp)
    rw [List.cons_append, List.find?_cons_of_neg (xs ++ a :: l2) (by simp [hx])]
    exact ih (fun q hq => h q (by simp [hq])) l2

theorem selectBest_cons_some (f : String → Nat) (x : String) (xs : List String) :
    ∃ p s, selectBest f (x :: xs) = some (p, s) := by
  cases hx : selectBest f xs with
  | none => exact ⟨x, f x, by simp [selectBest, hx]⟩
  | some qs =>
    by_cases hlt : f x < qs.2
    · exact ⟨qs.1, qs.2, by simp [selectBest, hx, hlt]⟩
    · exact ⟨x, f x, by simp [selectBest, hx, hlt]⟩

theorem selectBest_spec {f : String → Nat} :
    ∀ {l : List String} {p : String} {s : Nat}, selectBest f l = some (p, s) →
      s = f p ∧ (∃ l1 l2, l = l1 ++ p :: l2 ∧ ∀ q ∈ l1, f q < s) ∧ ∀ q ∈ l, f q ≤ s := by
  intro l
  induction l with
  | nil => intro p s h; simp [selectBest] at h
  | cons x xs ih =>
    intro p s h
    cases hx : selectBest f xs with
    | none =>
      have hxs : xs = [] := by
        cases xs with
        | nil => rfl
        | cons y ys =>
          obtain ⟨p0, s0, h0⟩ := selectBest_cons_some f y ys
          rw [h0] at hx
          cases hx
      subst hxs
      have hh : some (x, f x) = some (p, s) := by
        rw [show selectBest f [x] = some (x, f x) from rfl] at h
        exact h
      injection hh with hh1
      injection hh1 with hp hs
      subst hp
      subst hs
      exact ⟨rfl, ⟨[], [], rfl, by simp⟩, by simp⟩
    | some qs =>
      obtain ⟨q, s0⟩ := qs
      have hh : (if f x < s0 then some (q, s0) else some (x, f x)) = some (p, s) := by
        rw [show selectBest f (x :: xs) =
          match selectBest f xs with
          | none => some (x, f x)
          | some (q, s) => if f x < s then some (q, s) else some (x, f x) from rfl, hx] at h
        exact h
      obtain ⟨hs0, ⟨l1, l2, hl, hl1⟩, hall⟩ := ih hx
      by_cases hlt : f x < s0
      · rw [if_pos hlt] at hh
        injection hh with hh1
        injection hh1 with hp hs
        subst hp
        subst hs
        refine ⟨hs0, ⟨x :: l1, l2, by rw [hl]; rfl, ?_⟩, ?_⟩
        · intro r hr
          rcases List.mem_cons.mp hr with hrx | hr
          · subst hrx; exact hlt
          · exact hl1 r hr
        · intro r hr
          rcases List.mem_cons.mp hr with hrx | hr
          · subst hrx; exact Nat.le_of_lt hlt
          · exact hall r hr
      · rw [if_neg hlt] at hh
        injection hh with hh1
        injection hh1 with hp hs
        subst hp
        subst hs
        refine ⟨rfl, ⟨[], xs, rfl, by simp⟩, ?_⟩
        intro r hr
        rcases List.mem_cons.mp hr with hrx | hr
        · subst hrx; exact Nat.le_refl _
        · exact Nat.le_trans (hall r hr) (Nat.le_of_not_lt hlt)

/-! ## Pipeline-level helper lemmas -/

theorem lemma_token_match_nil (lemmatize : String → List String) (text : String) :
    lemma_token_match lemmatize text [] = none := by
  unfold lemma_token_match
  by_cases h : lemmatize text = []
  · simp [h]
  · simp only [h, if_false, List.find?_nil]
    rw [List.findSome?_eq_none_iff.mpr (fun x _ => rfl)]

theorem fuzzy_match_nil (scorer : String → String → Nat) (text : String) :
    fuzzy_match scorer text [] = none := by
  unfold fuzzy_match
  by_cases h : normalize_keep_paren text = ""
  · simp [h]
  · simp [h, selectBest]

theorem matches_any_nil (lemmatize : String → List String) (scorer : String → String → Nat)
    (text : String) :
    matches_any lemmatize scorer text [] =
      if text = "" then none
      else (regex_complexity_detect text).map (fun q => (q.1, "regex_complexity")) := by
  unfold matches_any
  by_cases ht : text = ""
  · simp [ht]
  · simp only [ht, if_false]
    cases hr : regex_complexity_detect text with
    | some reg => simp
    | none =>
      show (if truthy (contains_any_substring text []) = true then _ else _) = _
      rw [show contains_any_substring text [] = none from rfl]
      simp only [truthy, Bool.false_eq_true, if_false, Option.map_none]
      rw [lemma_token_match_nil]
      simp only [truthy, Bool.false_eq_true, if_false]
      rw [fuzzy_match_nil]
      rfl

theorem lookupEntry_map_self (g : String → Bool × Option String × Option String) :
    ∀ (l : List String) (m : String), m ∈ l →
      lookupEntry (l.map (fun k => (k, g k))) m = g m := by
  intro l
  induction l with
  | nil => intro m hm; simp at hm
  | cons k t ih =>
    intro m hm
    by_cases hk : (k == m) = true
    · have hkm : k = m := by simpa using hk
      subst hkm
      unfold lookupEntry
      rw [List.map_cons, List.find?_cons_of_pos _ (by simp)]
      rfl
    · have hm' : m ∈ t := by
        rcases List.mem_cons.mp hm with hkm | hm'
        · exact absurd (by simp [hkm] : (k == m) = true) hk
        · exact hm'
      unfold lookupEntry
      rw [List.map_cons, List.find?_cons_of_neg _ (by simpa using hk)]
      exact ih m hm'

/-! ## Claim theorems -/

theorem matches_any_empty_text (lemmatize : String → List String)
    (scorer : String → String → Nat) (patterns : List String) :
    matches_any lemmatize scorer "" patterns = none := by
  unfold matches_any
  simp

/-- C10: calling score_pair with an empty expected-categories list returns
empty peer_detected and teacher_fixed mappings and pass = true (the
conjunction over zero categories is vacuously true), so a scoring request
naming no categories always passes. -/
theorem c10_empty_categories_pass (lemmatize : String → List String)
    (scorer : String → String → Nat) (peer_text teacher_text : String) :
    score_pair lemmatize scorer peer_text teacher_text [] = ⟨[], [], true⟩ := rfl

/-- C1: for every peer text, teacher text and non-empty list of expected
categories, the pass flag returned by score_pair is true if and only if,
for every category in the list, both the peer-detected matched flag and
the teacher-fixed matched flag for that category are true. -/
theorem c1_pass_iff_all_flags (lemmatize : String → List String)
    (scorer : String → String → Nat) (peer_text teacher_text : String)
    (expected_mistakes : List String) (hne : expected_mistakes ≠ []) :
    (score_pair lemmatize scorer peer_text teacher_text expected_mistakes).pass = true ↔
      ∀ m ∈ expected_mistakes,
        (lookupEntry (score_pair lemmatize scorer peer_text teacher_text
          expected_mistakes).peer_detected m).1 = true ∧
        (lookupEntry (score_pair lemmatize scorer peer_text teacher_text
          expected_mistakes).teacher_fixed m).1 = true := by
  unfold score_pair
  simp only [List.all_eq_true, Bool.and_eq_true]

theorem c1_witness :
    (score_pair fallbackLemmatize constScorer "It is O(n^2)" "It is O(n) linear"
      ["complexity"]).pass = true ↔
      ∀ m ∈ ["complexity"],
        (lookupEntry (score_pair fallbackLemmatize constScorer "It is O(n^2)"
          "It is O(n) linear" ["complexity"]).peer_detected m).1 = true ∧
        (lookupEntry (score_pair fallbackLemmatize constScorer "It is O(n^2)"
          "It is O(n) linear" ["complexity"]).teacher_fixed m).1 = true :=
  c1_pass_iff_all_flags fallbackLemmatize constScorer "It is O(n^2)" "It is O(n) linear"
    ["complexity"] (by decide)

/-- C2: for every non-empty text and every phrase list (including the
empty list and lists of categories unrelated to complexity), if the raw
text matches one of the complexity regexes (that is, the detector
returns a family key), then the category matcher returns a match with
method regex_complexity and matched pattern equal to the detected family
key, without consulting the phrase list (the phrase list is universally
quantified and unused). -/
theorem c2_regex_short_circuit (lemmatize : String → List String)
    (scorer : String → String → Nat) (text : String) (patterns : List String)
    (k : String) (htext : text ≠ "")
    (hdet : regex_complexity_detect text = some (k, "regex")) :
    matches_any lemmatize scorer text patterns = some (k, "regex_complexity") := by
  unfold matches_any
  rw [if_neg htext, hdet]

theorem c2_witness :
    ("O(n^2)" : String) ≠ "" ∧
    regex_complexity_detect "O(n^2)" = some ("quadratic", "regex") ∧
    matches_any fallbackLemmatize constScorer "O(n^2)" ["edge case"] =
      some ("quadratic", "regex_complexity") :=
  ⟨by decide, by decide,
    c2_regex_short_circuit fallbackLemmatize constScorer "O(n^2)" ["edge case"]
      "quadratic" (by decide) (by decide)⟩

/-- C9: score_pair is a total function of its inputs (the embedding is a
Lean function, so every call returns); with both texts empty every
requested category scores (false, none, none) on both sides and the
aggregate pass flag is false (for a non-empty category list); and a
category absent from both indicator tables (an unknown category, whose
phrase lists are empty) yields exactly the result of the global regex
short-circuit on each text: no match unless the complexity detector
fires on that text. -/
theorem c9_malformed_inputs (lemmatize : String → List String)
    (scorer : String → String → Nat) (expected : List String)
    (peer_text teacher_text m : String)
    (hne : expected ≠ []) (hm : m ∈ expected)
    (hpm : lookupInd PEER_INDICATORS m = [])
    (htm : lookupInd TEACHER_INDICATORS m = []) :
    ((∀ k ∈ expected,
        lookupEntry (score_pair lemmatize scorer "" "" expected).peer_detected k =
          (false, none, none) ∧
        lookupEntry (score_pair lemmatize scorer "" "" expected).teacher_fixed k =
          (false, none, none)) ∧
      (score_pair lemmatize scorer "" "" expected).pass = false) ∧
    (lookupEntry (score_pair lemmatize scorer peer_text teacher_text
        expected).peer_detected m =
      entryOf (if peer_text = "" then none
        else (regex_complexity_detect peer_text).map (fun q => (q.1, "regex_complexity"))) ∧
      lookupEntry (score_pair lemmatize scorer peer_text teacher_text
        expected).teacher_fixed m =
      entryOf (if teacher_text = "" then none
        else (regex_complexity_detect teacher_text).map (fun q => (q.1, "regex_complexity")))) := by
  have hP0 : (score_pair lemmatize scorer "" "" expected).peer_detected =
      expected.map (fun k =>
        (k, entryOf (matches_any lemmatize scorer "" (lookupInd PEER_INDICATORS k)))) := rfl
  have hT0 : (score_pair lemmatize scorer "" "" expected).teacher_fixed =
      expected.map (fun k =>
        (k, entryOf (matches_any lemmatize scorer "" (lookupInd TEACHER_INDICATORS k)))) := rfl
  have hP : (score_pair lemmatize scorer peer_text teacher_text expected).peer_detected =
      expected.map (fun k =>
        (k, entryOf (matches_any lemmatize scorer peer_text
          (lookupInd PEER_INDICATORS k)))) := rfl
  have hT : (score_pair lemmatize scorer peer_text teacher_text expected).teacher_fixed =
      expected.map (fun k =>
        (k, entryOf (matches_any lemmatize scorer teacher_text
          (lookupInd TEACHER_INDICATORS k)))) := rfl
  refine ⟨⟨?_, ?_⟩, ?_, ?_⟩
  · intro k hk
    constructor
    · rw [hP0, lookupEntry_map_self _ expected k hk, matches_any_empty_text]
      rfl
    · rw [hT0, lookupEntry_map_self _ expected k hk, matches_any_empty_text]
      rfl
  · cases hp : (score_pair lemmatize scorer "" "" expected).pass with
    | false => rfl
    | true =>
      exfalso
      have hall : ∀ k ∈ expected,
          ((lookupEntry (score_pair lemmatize scorer "" "" expected).peer_detected k).1 &&
            (lookupEntry (score_pair lemmatize scorer "" "" expected).teacher_fixed k).1)
            = true := by
        have hp' : (score_pair lemmatize scorer "" "" expected).pass =
            expected.all (fun k =>
              (lookupEntry (score_pair lemmatize scorer "" "" expected).peer_detected k).1 &&
              (lookupEntry (score_pair lemmatize scorer "" "" expected).teacher_fixed k).1) := rfl
        rw [hp', List.all_eq_true] at hp
        exact hp
      have := hall m hm
      rw [hP0, lookupEntry_map_self _ expected m hm, matches_any_empty_text] at this
      simp [entryOf] at this
  · rw [hP, lookupEntry_map_self _ expected m hm, hpm, matches_any_nil]
  · rw [hT, lookupEntry_map_self _ expected m hm, htm, matches_any_nil]

theorem c9_witness :
    ((∀ k ∈ ["nonexistent_category"],
        lookupEntry (score_pair fallbackLemmatize constScorer "" ""
          ["nonexistent_category"]).peer_detected k = (false, none, none) ∧
        lookupEntry (score_pair fallbackLemmatize constScorer "" ""
          ["nonexistent_category"]).teacher_fixed k = (false, none, none)) ∧
      (score_pair fallbackLemmatize constScorer "" "" ["nonexistent_category"]).pass = false) ∧
    (lookupEntry (score_pair fallbackLemmatize constScorer "runs in O(n^2) time" "ok"
        ["nonexistent_category"]).peer_detected "nonexistent_category" =
      entryOf (if ("runs in O(n^2) time" : String) = "" then none
        else (regex_complexity_detect "runs in O(n^2) time").map
          (fun q => (q.1, "regex_complexity"))) ∧
      lookupEntry (score_pair fallbackLemmatize constScorer "runs in O(n^2) time" "ok"
        ["nonexistent_category"]).teacher_fixed "nonexistent_category" =
      entryOf (if ("ok" : String) = "" then none
        else (regex_complexity_detect "ok").map
          (fun q => (q.1, "regex_complexity")))) :=
  c9_malformed_inputs fallbackLemmatize constScorer ["nonexistent_category"]
    "runs in O(n^2) time" "ok" "nonexistent_category"
    (by decide) (by decide) (by decide) (by decide)

/-- C5 counterexample: with text "odd/even" and the one-phrase list
["odd/even"], the phrase normalizes to "odd even", which is a substring
of the normalized text (here equal to it), yet the substring stage
returns no match, because the code tests the raw phrase, whose slash
cannot occur in normalized text. -/
theorem c5_counterexample :
    normalize_keep_paren "odd/even" = "odd even" ∧
    strContains (normalize_keep_paren "odd/even") (normalize_keep_paren "odd/even") = true ∧
    contains_any_substring "odd/even" ["odd/even"] = none :=
  ⟨by decide, by decide, by decide⟩

/-- C5 (amended): the substring stage returns the first phrase in list
order that occurs literally (the raw phrase, not its normalized form) as
a substring of the normalized text, and returns no match exactly when no
phrase occurs literally in the normalized text. -/
theorem c5_substring_stage_amended (text : String) (patterns : List String) :
    (∀ p, contains_any_substring text patterns = some p ↔
      (strContains (normalize_keep_paren text) p = true ∧
        ∃ l1 l2, patterns = l1 ++ p :: l2 ∧
          ∀ q ∈ l1, strContains (normalize_keep_paren text) q = false)) ∧
    (contains_any_substring text patterns = none ↔
      ∀ p ∈ patterns, strContains (normalize_keep_paren text) p = false) := by
  constructor
  · intro p
    constructor
    · intro h
      exact find?_decomp h
    · rintro ⟨hp, l1, l2, rfl, hl1⟩
      exact find?_of_decomp p hp l1 hl1 l2
  · constructor
    · intro h p hp
      have := List.find?_eq_none.mp h p hp
      simpa using this
    · intro h
      exact List.find?_eq_none.mpr (fun p hp => by simp [h p hp])

/-- C3 counterexample: the phrase "nested loop" is present verbatim in
the text "O(n^2) uses nested loop" (raw and normalized alike), yet the
match method is regex_complexity, not substr, because the complexity
regex detector runs before the substring stage. -/
theorem c3_counterexample :
    strContains (normalize_keep_paren "O(n^2) uses nested loop") "nested loop" = true ∧
    strContains (normalize_keep_paren "O(n^2) uses nested loop")
      (normalize_keep_paren "nested loop") = true ∧
    matches_any fallbackLemmatize constScorer "O(n^2) uses nested loop" ["nested loop"] =
      some ("quadratic", "regex_complexity") ∧
    ("regex_complexity" : String) ≠ "substr" :=
  ⟨by decide, by decide, by decide, by decide⟩

theorem matches_any_no_regex (lemmatize : String → List String)
    (scorer : String → String → Nat) (text : String) (patterns : List String)
    (htext : text ≠ "") (hreg : regex_complexity_detect text = none) :
    matches_any lemmatize scorer text patterns =
      if truthy (contains_any_substring text patterns) = true
        then some ((contains_any_substring text patterns).getD "", "substr")
        else if truthy (lemma_token_match lemmatize text patterns) = true
          then some ((lemma_token_match lemmatize text patterns).getD "", "lemma")
          else match fuzzy_match scorer text patterns with
            | some (pattern, score) => some (pattern, "fuzzy:" ++ toString score)
            | none => none := by
  unfold matches_any
  rw [if_neg htext, hreg]

/-- C3 (amended): when the text is non-empty, the complexity regex
detector does not fire, and the phrase list has no empty phrase, a
phrase that occurs literally (raw phrase against normalized text, not
normalized against normalized) guarantees that the result is the first
literally occurring phrase with method substr -- never lemma and never
fuzzy. -/
theorem c3_substr_method_amended (lemmatize : String → List String)
    (scorer : String → String → Nat) (text : String) (patterns : List String)
    (p : String) (htext : text ≠ "") (hreg : regex_complexity_detect text = none)
    (hnonempty : ∀ q ∈ patterns, q ≠ "") (hp : p ∈ patterns)
    (hsub : strContains (normalize_keep_paren text) p = true) :
    ∃ q, strContains (normalize_keep_paren text) q = true ∧
      matches_any lemmatize scorer text patterns = some (q, "substr") := by
  have hsome : ∃ q, contains_any_substring text patterns = some q := by
    cases hfq : contains_any_substring text patterns with
    | some q => exact ⟨q, rfl⟩
    | none =>
      have := List.find?_eq_none.mp hfq p hp
      exact absurd hsub (by simpa using this)
  obtain ⟨q, hq⟩ := hsome
  have hqpred : strContains (normalize_keep_paren text) q = true := List.find?_some hq
  have hqmem : q ∈ patterns := List.mem_of_find?_eq_some hq
  have hqne : q ≠ "" := hnonempty q hqmem
  refine ⟨q, hqpred, ?_⟩
  rw [matches_any_no_regex lemmatize scorer text patterns htext hreg, hq]
  have htr : truthy (some q) = true := by simp [truthy, hqne]
  rw [htr, if_pos rfl]
  rfl

theorem c3_witness :
    ∃ q, strContains (normalize_keep_paren "watch the nested loop here") q = true ∧
      matches_any fallbackLemmatize constScorer "watch the nested loop here"
        ["nested loop"] = some (q, "substr") :=
  c3_substr_method_amended fallbackLemmatize constScorer "watch the nested loop here"
    ["nested loop"] "nested loop" (by decide) (by decide) (by decide) (by decide) (by decide)

/-- C4 counterexample: the claim names "O(n log n)" as a representative
literal of the log-linear family, but the detector returns the linear
family for it: the linear pattern o\(?\s*n\)? matches the prefix "O(n"
(the closing parenthesis is optional and a word boundary follows "n"),
and linear precedes nlogn in the fixed iteration order. -/
theorem c4_counterexample :
    regex_complexity_detect "O(n log n)" = some ("linear", "regex") ∧
    ("linear" : String) ≠ "nlogn" :=
  ⟨by decide, by decide⟩

/-- C4 (amended): the detector returns the first family in the fixed
order quadratic, exponential, linear, nlogn, vplusE, n_k_logk, n_k whose
pattern matches.  Representative literals in isolation are detected as
their family -- "O(n^2)" and "n*n" as quadratic, "O(2^n)" as
exponential, "O(n)" as linear, "n log n" as nlogn, "O(V+E)" as vplusE,
"n * k log k" as n_k_logk, "n k" (with prose) as n_k, and quadratic
notation embedded in prose still wins even when the word exponential
also matches -- but the O(...)-wrapped forms of the nlogn and n_k_logk
families are detected as linear, because the linear pattern already
matches their "O(n" prefix. -/
theorem c4_detector_families_amended :
    regex_complexity_detect "O(n^2)" = some ("quadratic", "regex") ∧
    regex_complexity_detect "n*n" = some ("quadratic", "regex") ∧
    regex_complexity_detect "O(2^n)" = some ("exponential", "regex") ∧
    regex_complexity_detect "O(n)" = some ("linear", "regex") ∧
    regex_complexity_detect "n log n" = some ("nlogn", "regex") ∧
    regex_complexity_detect "O(V+E)" = some ("vplusE", "regex") ∧
    regex_complexity_detect "n * k log k" = some ("n_k_logk", "regex") ∧
    regex_complexity_detect "the pairs n k are compared" = some ("n_k", "regex") ∧
    regex_complexity_detect "exponential blowup in the O(n^2) loop" =
      some ("quadratic", "regex") ∧
    regex_complexity_detect "O(n log n)" = some ("linear", "regex") ∧
    regex_complexity_detect "O(n * k log k)" = some ("linear", "regex") := by
  decide

/-- C7 counterexample: the normalizer is not idempotent.  On "_vs(" the
first pass does not rewrite "vs" (the underscore is a word character, so
there is no word boundary) but the character filter then turns the
underscore into a space; the second pass therefore sees a word boundary
before "vs" and one after it (the parenthesis), rewrites it, and the
output gains a space: normalize("_vs(") = "vs(" while
normalize(normalize("_vs(")) = "vs (". -/
theorem c7_counterexample :
    normalize_keep_paren "_vs(" = "vs(" ∧
    normalize_keep_paren (normalize_keep_paren "_vs(") = "vs (" ∧
    normalize_keep_paren (normalize_keep_paren "_vs(") ≠ normalize_keep_paren "_vs(" :=
  ⟨by decide, by decide, by decide⟩

/-- C7 (amended): the normalizer is idempotent on every string that
contains no occurrence of the letter v immediately followed by the
letter s (in either case) -- on such strings the vs rewrite never fires
and a second pass reproduces the first; the counterexample shows the
restriction is needed when removed word characters abut a "vs". -/
theorem c7_normalize_idem_amended (s : String) (h : noVS s.data = true) :
    normalize_keep_paren (normalize_keep_paren s) = normalize_keep_paren s := by
  show String.mk (normalizeL (normalizeL s.data)) = String.mk (normalizeL s.data)
  rw [normalizeL_idem h]

theorem c7_witness :
    noVS ("  Hello__World (n^2) / foo  " : String).data = true ∧
    normalize_keep_paren (normalize_keep_paren "  Hello__World (n^2) / foo  ") =
      normalize_keep_paren "  Hello__World (n^2) / foo  " :=
  ⟨by decide, c7_normalize_idem_amended "  Hello__World (n^2) / foo  " (by decide)⟩

theorem fuzzy_match_of_selectBest (scorer : String → String → Nat) (text : String)
    (patterns : List String) (p : String) (s : Nat)
    (ht : normalize_keep_paren text ≠ "")
    (hsel : selectBest (scorer (normalize_keep_paren text)) patterns = some (p, s)) :
    fuzzy_match scorer text patterns =
      if p = "" then none
      else if (if (splitWS p.data).length ≤ 2 then SHORT_PHRASE_FUZZY_THRESHOLD
          else FUZZY_SCORE_THRESHOLD) ≤ s
        then some (p, s) else none := by
  unfold fuzzy_match
  rw [if_neg ht, hsel]

/-- C6: for every similarity primitive that scores the empty phrase at
zero, every text with non-empty normalization, and every non-empty
phrase list, the fuzzy matcher selects the single highest-scoring phrase
(ties broken by the first occurrence in the list: every strictly earlier
phrase scores strictly less, and no phrase scores more) and returns it
exactly when its score meets the adaptive threshold: at least 88 when
the selected phrase has two words or fewer, at least 82 otherwise, and
no match below the applicable threshold. -/
theorem c6_fuzzy_adaptive_threshold (scorer : String → String → Nat)
    (hz : ∀ t, scorer t "" = 0) (text : String) (patterns : List String)
    (hp : patterns ≠ []) (ht : normalize_keep_paren text ≠ "") :
    ∃ p s, p ∈ patterns ∧ s = scorer (normalize_keep_paren text) p ∧
      (∃ l1 l2, patterns = l1 ++ p :: l2 ∧
        ∀ q ∈ l1, scorer (normalize_keep_paren text) q < s) ∧
      (∀ q ∈ patterns, scorer (normalize_keep_paren text) q ≤ s) ∧
      fuzzy_match scorer text patterns =
        (if (if (splitWS p.data).length ≤ 2 then SHORT_PHRASE_FUZZY_THRESHOLD
            else FUZZY_SCORE_THRESHOLD) ≤ s
          then some (p, s) else none) := by
  obtain ⟨x, xs, rfl⟩ : ∃ x xs, patterns = x :: xs := by
    cases patterns with
    | nil => exact absurd rfl hp
    | cons x xs => exact ⟨x, xs, rfl⟩
  obtain ⟨p, s, hsel⟩ := selectBest_cons_some (scorer (normalize_keep_paren text)) x xs
  obtain ⟨hs, ⟨l1, l2, hl, hl1⟩, hall⟩ := selectBest_spec hsel
  refine ⟨p, s, by rw [hl]; simp, hs, ⟨l1, l2, hl, hl1⟩, hall, ?_⟩
  rw [fuzzy_match_of_selectBest scorer text (x :: xs) p s ht hsel]
  by_cases hpe : p = ""
  · subst hpe
    rw [if_pos rfl]
    have hs0 : s = 0 := by rw [hs, hz]
    rw [hs0, if_neg (by decide)]
  · rw [if_neg hpe]

theorem c6_witness :
    (∃ p s, p ∈ ["one two three four"] ∧
      s = (fun (_ q : String) => if q = "" then 0 else 85)
        (normalize_keep_paren "zzz") p ∧
      (∃ l1 l2, ["one two three four"] = l1 ++ p :: l2 ∧
        ∀ q ∈ l1, (fun (_ q : String) => if q = "" then 0 else 85)
          (normalize_keep_paren "zzz") q < s) ∧
      (∀ q ∈ ["one two three four"],
        (fun (_ q : String) => if q = "" then 0 else 85)
          (normalize_keep_paren "zzz") q ≤ s) ∧
      fuzzy_match (fun (_ q : String) => if q = "" then 0 else 85) "zzz"
          ["one two three four"] =
        (if (if (splitWS p.data).length ≤ 2 then SHORT_PHRASE_FUZZY_THRESHOLD
            else FUZZY_SCORE_THRESHOLD) ≤ s
          then some (p, s) else none)) ∧
    (∃ p s, p ∈ ["one two"] ∧
      s = (fun (_ q : String) => if q = "" then 0 else 85)
        (normalize_keep_paren "zzz") p ∧
      (∃ l1 l2, ["one two"] = l1 ++ p :: l2 ∧
        ∀ q ∈ l1, (fun (_ q : String) => if q = "" then 0 else 85)
          (normalize_keep_paren "zzz") q < s) ∧
      (∀ q ∈ ["one two"],
        (fun (_ q : String) => if q = "" then 0 else 85)
          (normalize_keep_paren "zzz") q ≤ s) ∧
      fuzzy_match (fun (_ q : String) => if q = "" then 0 else 85) "zzz" ["one two"] =
        (if (if (splitWS p.data).length ≤ 2 then SHORT_PHRASE_FUZZY_THRESHOLD
            else FUZZY_SCORE_THRESHOLD) ≤ s
          then some (p, s) else none)) :=
  ⟨c6_fuzzy_adaptive_threshold (fun _ q => if q = "" then 0 else 85)
      (fun _ => rfl) "zzz" ["one two three four"] (by decide) (by decide),
    c6_fuzzy_adaptive_threshold (fun _ q => if q = "" then 0 else 85)
      (fun _ => rfl) "zzz" ["one two"] (by decide) (by decide)⟩

theorem gram_implies_tokens (lemmatize : String → List String)
    (hl : ∀ t, ∀ tok ∈ lemmatize t, tok.data ≠ [] ∧ ∀ c ∈ tok.data, isWS c = false)
    (text : String) (p : String)
    (hcont : (gramsOf (lemmatize text)).contains (normalize_keep_paren p) = true) :
    (phraseTokens p).all (fun pt => (lemmatize text).contains pt) = true := by
  have hmem : normalize_keep_paren p ∈ gramsOf (lemmatize text) :=
    List.elem_iff.mp hcont
  unfold gramsOf at hmem
  rw [List.mem_flatMap] at hmem
  obtain ⟨n, _, hmem⟩ := hmem
  rw [List.mem_map] at hmem
  obtain ⟨i, _, hgram⟩ := hmem
  have hWF : ∀ w ∈ (((lemmatize text).drop i).take n).map String.data,
      w ≠ [] ∧ ∀ c ∈ w, isWS c = false := by
    intro w hw
    obtain ⟨t, ht', rfl⟩ := List.mem_map.mp hw
    exact hl text t (List.mem_of_mem_drop (List.mem_of_mem_take ht'))
  have hsplit : splitWS (joinTokens (((lemmatize text).drop i).take n)).data =
      (((lemmatize text).drop i).take n).map String.data := by
    show splitWS (joinSpace ((((lemmatize text).drop i).take n).map String.data)) = _
    exact splitWS_joinSpace _ hWF
  have hpt : phraseTokens p = ((lemmatize text).drop i).take n := by
    unfold phraseTokens splitWords
    rw [← hgram, hsplit, List.map_map]
    exact map_id_of_mem _ (fun t _ => rfl)
  rw [hpt, List.all_eq_true]
  intro pt hpt'
  exact List.elem_iff.mpr (List.mem_of_mem_drop (List.mem_of_mem_take hpt'))

/-- C8: the lemma/token stage agrees with its specification-style
restatement lemma_token_match_spec (the first phrase in phrase-list
order such that either every one of its normalized whitespace-split
tokens appears among the text lemmas, or its normalized form equals a
contiguous n-gram of the lemma sequence, n from min(5, token count) down
to 1; no match when the text yields no tokens), for every lemma function
whose tokens are non-empty and whitespace-free -- a property the shipped
fallback lemmatizer satisfies (fallbackLemmatize_wf). -/
theorem c8_lemma_stage_first_match (lemmatize : String → List String)
    (hl : ∀ t, ∀ tok ∈ lemmatize t, tok.data ≠ [] ∧ ∀ c ∈ tok.data, isWS c = false)
    (text : String) (patterns : List String) :
    lemma_token_match lemmatize text patterns =
      lemma_token_match_spec lemmatize text patterns := by
  unfold lemma_token_match lemma_token_match_spec
  by_cases htok : lemmatize text = []
  · simp [htok]
  · simp only [htok, if_false]
    have hfun : (fun p => (phraseTokens p).all (fun pt => (lemmatize text).contains pt) ||
        (gramsOf (lemmatize text)).contains (normalize_keep_paren p)) =
        (fun p => (phraseTokens p).all (fun pt => (lemmatize text).contains pt)) := by
      funext p
      cases hc1 : (phraseTokens p).all (fun pt => (lemmatize text).contains pt) with
      | true => simp
      | false =>
        cases hc2 : (gramsOf (lemmatize text)).contains (normalize_keep_paren p) with
        | false => simp
        | true =>
          have hx := gram_implies_tokens lemmatize hl text p hc2
          rw [hc1] at hx
          cases hx
    rw [hfun]
    cases hf : patterns.find?
        (fun p => (phraseTokens p).all (fun pt => (lemmatize text).contains pt)) with
    | some p => rfl
    | none =>
      show (gramsOf (lemmatize text)).findSome?
        (fun gram => patterns.find? (fun p => normalize_keep_paren p == gram)) = none
      rw [List.findSome?_eq_none_iff]
      intro gram hgram
      rw [List.find?_eq_none]
      intro p hp hbeq
      have heq : normalize_keep_paren p = gram := by simpa using hbeq
      have hc2 : (gramsOf (lemmatize text)).contains (normalize_keep_paren p) = true := by
        rw [heq]
        exact List.elem_iff.mpr hgram
      have hc1 := gram_implies_tokens lemmatize hl text p hc2
      have := List.find?_eq_none.mp hf p hp
      exact absurd hc1 this

theorem fallbackLemmatize_wf : ∀ t, ∀ tok ∈ fallbackLemmatize t,
    tok.data ≠ [] ∧ ∀ c ∈ tok.data, isWS c = false := by
  intro t tok htok
  unfold fallbackLemmatize at htok
  by_cases h : t = ""
  · simp [h] at htok
  · simp only [h, if_false] at htok
    unfold splitWords at htok
    obtain ⟨w, hw, rfl⟩ := List.mem_map.mp htok
    obtain ⟨hne, hch⟩ := splitWS_wf _ w hw
    exact ⟨by simpa using hne, by simpa using hch⟩

theorem c8_witness :
    lemma_token_match fallbackLemmatize "they differ in odd even cases"
      ["odd/even", "empty list"] =
    lemma_token_match_spec fallbackLemmatize "they differ in odd even cases"
      ["odd/even", "empty list"] :=
  c8_lemma_stage_first_match fallbackLemmatize fallbackLemmatize_wf
    "they differ in odd even cases" ["odd/even", "empty list"]
